import Mathlib

/-!
Verification development for the `packageESM` packaging engine
(`src/packageESM.ts` of monaco-plugin-helpers).

The TypeScript source is shallowly embedded here:

* strings (file contents, paths, import specifiers) are modelled as
  `List Char` (`Str`), so that offset-based splicing and substring
  operations are ordinary list operations;
* Node's `path` module (posix flavour) is reimplemented over `Str`
  (`pathNormalize`, `pathJoinList`, `pathDirname`, `pathRelative`);
* the filesystem (`fs.existsSync`, `fs.readFileSync`, `JSON.parse` of a
  manifest) and the TypeScript import scanner (`ts.preProcessFile`) are
  external collaborators and are modelled as components of an `Env`
  record supplied to the run;
* `while` loops without a structural termination measure (the worklist
  loop and the destination-folder simplification loop) take an explicit
  fuel argument; a run that would not finish within the fuel is reported
  as a distinguished `outOfFuel` error rather than silently truncated;
* the in-place mutation of `options.repoRoot` is modelled by returning
  the updated options record alongside the run's outcome;
* `fs.writeFileSync` and the recursive directory creation are modelled
  by logging each write `(source path, destination path, contents)`;
  no claim concerns the directory materializer itself.
-/

namespace PackageESM

/-- Strings are modelled as lists of characters, so that offsets and
splicing are plain list operations. -/
abbrev Str := List Char

/-- Coerces a Lean string literal to the `Str` model. -/
def str (s : String) : Str := s.toList

/-- Model of `s.replace(/\\/g, '/')`: every backslash becomes a forward
slash. -/
def normSlashes (s : Str) : Str := s.map (fun c => if c = '\\' then '/' else c)

/-- Model of `s.indexOf(pat) >= 0` for a plain-string pattern: does `pat`
occur as a contiguous substring of `s`?  (The empty pattern occurs in
every string, matching JavaScript `indexOf`.) -/
def occursIn : Str → Str → Bool
  | s, pat =>
    if pat.isPrefixOf s then true
    else match s with
      | [] => false
      | _ :: t => occursIn t pat

/-- Model of `s.replace(pat, rep)` for a plain-string pattern: replaces
the first occurrence of `pat` (if any) with `rep`.  JavaScript `$`-escape
sequences in the replacement are not modelled; no configuration in this
repository uses them. -/
def replaceFirst : Str → Str → Str → Str
  | s, pat, rep =>
    if pat.isPrefixOf s then rep ++ s.drop pat.length
    else match s with
      | [] => []
      | c :: t => c :: replaceFirst t pat rep

/-- The half-open slice `s[a..b)` of a list-string. -/
def listExtract (s : Str) (a b : Nat) : Str := (s.drop a).take (b - a)

/-- JavaScript object property lookup on a finite table, keyed by exact
string equality (first binding wins; a JS object has distinct keys). -/
def assocLookup : List (Str × Str) → Str → Option Str
  | [], _ => none
  | (k, v) :: rest, key => if k = key then some v else assocLookup rest key

/-- Splits a path into its `/`-separated components, dropping empty
components. -/
def pathComps (s : Str) : List Str :=
  (s.splitOn '/').filter (fun c => c ≠ [])

/-- Resolves `.` and `..` components the way Node's posix
`path.normalize` does: `.` is dropped; `..` pops the previous component
when possible, is dropped at the root of an absolute path, and is kept
at the front of a relative path. -/
def resolveDots (isAbs : Bool) : List Str → List Str → List Str
  | acc, [] => acc
  | acc, c :: rest =>
    if c = str "." then resolveDots isAbs acc rest
    else if c = str ".." then
      match acc.getLast? with
      | some l =>
        if l = str ".." then resolveDots isAbs (acc ++ [c]) rest
        else resolveDots isAbs acc.dropLast rest
      | none =>
        if isAbs then resolveDots isAbs acc rest
        else resolveDots isAbs (acc ++ [c]) rest
    else resolveDots isAbs (acc ++ [c]) rest

/-- Model of Node's posix `path.normalize`: collapses repeated
separators, resolves `.` and `..`, keeps a single trailing slash when
the input had one, and returns `.` for an empty result.  (Backslashes
are not separators on posix.) -/
def pathNormalize (s : Str) : Str :=
  if s = [] then str "."
  else
    let isAbs := s.head? = some '/'
    let hasTrail := s.getLast? = some '/'
    let comps := resolveDots isAbs [] (pathComps s)
    let core := (comps.intersperse (str "/")).flatten
    let base :=
      if isAbs then str "/" ++ core
      else if core = [] then str "." else core
    if hasTrail ∧ base.getLast? ≠ some '/' then base ++ str "/" else base

/-- Model of Node's posix `path.join` applied to a list of segments:
the non-empty segments are joined with `/` and the result is
normalized. -/
def pathJoinList (parts : List Str) : Str :=
  pathNormalize (((parts.filter (fun p => p ≠ [])).intersperse (str "/")).flatten)

/-- Model of Node's posix `path.dirname`: everything before the last
separator of the last path component, with `.` for separator-free input
and `/` for paths that reduce to the root.  (Node's special case that
maps a `//`-rooted path to the directory `//` is not modelled; no claim
depends on it.) -/
def pathDirname (s : Str) : Str :=
  if s = [] then str "."
  else
    let hasRoot := s.head? = some '/'
    let r2 := (s.reverse.dropWhile (fun c => c = '/')).dropWhile (fun c => c ≠ '/')
    match r2 with
    | [] => if hasRoot then str "/" else str "."
    | _ :: rest => if rest = [] then str "/" else rest.reverse

/-- Length of the longest common prefix of two component lists. -/
def commonLen : List Str → List Str → Nat
  | a :: as, b :: bs => if a = b then commonLen as bs + 1 else 0
  | _, _ => 0

/-- Model of Node's posix `path.relative` for absolute arguments: walks
up from `base` to the common ancestor and back down to `target`.
(`path.resolve` against a current working directory, which Node applies
to relative arguments, is not modelled; every call site passes absolute
paths rooted in `repoRoot`.) -/
def pathRelative (base target : Str) : Str :=
  let f := pathComps (pathNormalize base)
  let t := pathComps (pathNormalize target)
  let k := commonLen f t
  ((List.replicate (f.length - k) (str "..") ++ t.drop k).intersperse (str "/")).flatten

/-- Model of `.replace(/(\/|\\)$/, '')`: strips one trailing path
separator, if present. -/
def stripTrailingSep (s : Str) : Str :=
  if s.getLast? = some '/' ∨ s.getLast? = some '\\' then s.dropLast else s

/-- Model of the regex test `/(^\.\/)|(^\.\.\/)/`: does the specifier
start with `./` or `../`? -/
def isRelativeSpecifier (s : Str) : Bool :=
  (str "./").isPrefixOf s || (str "../").isPrefixOf s

/-- Model of `.replace(/\.js$/, '')`: strips one trailing `.js`. -/
def stripDotJs (s : Str) : Str :=
  if (str ".js").isSuffixOf s then s.take (s.length - 3) else s

/-! ## Data model (`IOptions`, the scanner, the filesystem) -/

/-- The `IOptions` configuration record of `packageESM.ts`.  The two
JavaScript objects (`resolveAlias`, `destinationFolderSimplification`)
are modelled as association lists with distinct keys, looked up via
`assocLookup`. -/
structure IOptions where
  repoRoot : Str
  esmSource : Str
  esmDestination : Str
  entryPoints : List Str
  resolveAlias : List (Str × Str)
  resolveSkip : List Str
  destinationFolderSimplification : List (Str × Str)
deriving DecidableEq

/-- One element of `ts.preProcessFile(contents).importedFiles`: the
specifier text and its scanner-reported offsets.  As in the TypeScript
scanner, the specifier text itself occupies the half-open slice
`[pos+1, end+1)` of the file contents (the delimiting quotes sit just
outside that slice).  The source's field name `end` is a Lean keyword
and is rendered `end_`. -/
structure FileReference where
  fileName : Str
  pos : Nat
  end_ : Nat
deriving DecidableEq

/-- A JSON value, as produced by `JSON.parse` of a package manifest.
Numbers are irrelevant to every claim and are modelled as integers. -/
inductive Json where
  | null : Json
  | bool (b : Bool) : Json
  | num (n : Int) : Json
  | jstr (s : Str) : Json
  | arr (elems : List Json) : Json
  | obj (fields : List (Str × Json)) : Json

/-- Property lookup in the field list of a JSON object. -/
def jsonObjLookup : List (Str × Json) → Str → Option Json
  | [], _ => none
  | (k, v) :: rest, key => if k = key then some v else jsonObjLookup rest key

/-- JavaScript member access `j.field` on a parsed JSON value: `none`
models `undefined` (absent field, or access on a non-object). -/
def jsonField : Json → Str → Option Json
  | .obj fields, key => jsonObjLookup fields key
  | _, _ => none

/-- The external collaborators of one run: the filesystem and the
scanner of imports.  `readFile` returning `none` models `fs.readFileSync`
throwing; `readJson` models `JSON.parse(fs.readFileSync(p).toString())`
with `none` for a read or parse failure; `preProcessFile` models
`ts.preProcessFile(contents).importedFiles`. -/
structure Env where
  existsSync : Str → Bool
  readFile : Str → Option Str
  readJson : Str → Option Json
  preProcessFile : Str → List FileReference

/-- The abnormal outcomes of one run.  The first four mirror the four
`throw new Error(...)` sites of the source; `readError` models
`fs.readFileSync` throwing; `outOfFuel` reports that the model's fuel
was insufficient to finish the worklist or a simplification loop. -/
inductive RunError where
  | cannotFindModule (module sourceFilePath : Str)
  | missingPackageJson (modulePackagePath modulePath : Str)
  | missingModuleField (modulePackagePath : Str)
  | missingFile (path : Str)
  | readError (path : Str)
  | outOfFuel
deriving DecidableEq

/-! ## Third-party resolution (`findNodeModuleImport` and helpers) -/

/-- Loop body of `generatePaths`: while `sourceDir.length >=
repoRoot.length`, push `path.join(sourceDir, 'node_modules', module)`
and step `sourceDir` to its dirname.  The fuel bounds the walk; since
`pathDirname` strictly shortens every path of length at least two, the
fuel chosen by `generatePaths` is never exhausted when the repository
root has length at least two (for a shorter root, such as `/`, the
source's `while` loop never terminates). -/
def generatePathsAux (repoRoot module : Str) : Nat → Str → List Str
  | 0, _ => []
  | fuel + 1, sourceDir =>
    if repoRoot.length ≤ sourceDir.length then
      pathJoinList [sourceDir, str "node_modules", module]
        :: generatePathsAux repoRoot module fuel (pathDirname sourceDir)
    else []

/-- `generatePaths` of the source: candidate `node_modules` directories
for `module`, from the importing file's directory upward. -/
def generatePaths (repoRoot module sourceFilePath : Str) : List Str :=
  let sourceDir := pathDirname sourceFilePath
  generatePathsAux repoRoot module (sourceDir.length + 1) sourceDir

/-- The `for` loop of `findNodeModule`: return the first candidate path
that exists on disk; if none does, throw `Cannot find module ...`. -/
def findNodeModuleLoop (env : Env) (module sourceFilePath : Str) :
    List Str → Except RunError Str
  | [] => .error (.cannotFindModule module sourceFilePath)
  | p :: rest =>
    if env.existsSync p then .ok p
    else findNodeModuleLoop env module sourceFilePath rest

/-- `findNodeModule` of the source: the first candidate directory that
exists on disk, else the `Cannot find module ...` error naming the
module and the importing file. -/
def findNodeModule (env : Env) (repoRoot module sourceFilePath : Str) :
    Except RunError Str :=
  findNodeModuleLoop env module sourceFilePath
    (generatePaths repoRoot module sourceFilePath)

/-- `findNodeModuleImport` of the source: locate the package directory,
require its `package.json`, require a string-valued `module` field, and
require the named entry file to exist. -/
def findNodeModuleImport (env : Env) (repoRoot module sourceFilePath : Str) :
    Except RunError Str :=
  match findNodeModule env repoRoot module sourceFilePath with
  | .error e => .error e
  | .ok modulePath =>
    let modulePackagePath := pathJoinList [modulePath, str "package.json"]
    if env.existsSync modulePackagePath then
      match env.readJson modulePackagePath with
      | none => .error (.readError modulePackagePath)
      | some modulePackage =>
        match jsonField modulePackage (str "module") with
        | some (.jstr m) =>
          let result := pathJoinList [modulePath, m]
          if env.existsSync result then .ok result
          else .error (.missingFile result)
        | _ => .error (.missingModuleField modulePackagePath)
    else .error (.missingPackageJson modulePackagePath modulePath)

/-! ## Destination path computation -/

/-- The `while (filePath.indexOf(test) >= 0)` loop of
`applyDestinationFolderSimplifications`, fuel-bounded: repeatedly
replace the first occurrence of `pat` with `rep` while an occurrence
remains. -/
def replaceLoop : Nat → Str → Str → Str → Str
  | 0, s, _, _ => s
  | fuel + 1, s, pat, rep =>
    if occursIn s pat then replaceLoop fuel (replaceFirst s pat rep) pat rep
    else s

/-- The replacement string used for a simplification pattern `test`:
the source evaluates `options.destinationFolderSimplification[test]`,
i.e. it looks the table up by the backslash-normalized pattern, not by
the original key.  When that lookup misses (the configured key
contained a backslash), JavaScript's `String.prototype.replace` coerces
the resulting `undefined` to the string `"undefined"`. -/
def simplRep (table : List (Str × Str)) (test : Str) : Str :=
  (assocLookup table test).getD (str "undefined")

/-- The `for (let key in ...)` loop of
`applyDestinationFolderSimplifications`, over the remaining rules.  The
second component of the result records whether every inner `while` loop
reached completion within the fuel (`false` means the model truncated a
loop that the source would have kept running). -/
def applyRulesAux (fuel : Nat) (table : List (Str × Str)) :
    List (Str × Str) → Str → Str × Bool
  | [], s => (s, true)
  | (key, _) :: rest, s =>
    let test := normSlashes key
    let s' := replaceLoop fuel s test (simplRep table test)
    let r := applyRulesAux fuel table rest s'
    (r.1, (!occursIn s' test) && r.2)

/-- `applyDestinationFolderSimplifications` of the source: normalize
separators of the path to forward slashes, then exhaust every
simplification rule in order. -/
def applyDestinationFolderSimplifications (fuel : Nat) (opts : IOptions)
    (filePath : Str) : Str :=
  (applyRulesAux fuel opts.destinationFolderSimplification
    opts.destinationFolderSimplification (normSlashes filePath)).1

/-- True when every simplification `while` loop for this input finished
within the fuel, i.e. the model faithfully reproduces the source. -/
def simplificationsComplete (fuel : Nat) (opts : IOptions) (filePath : Str) : Bool :=
  (applyRulesAux fuel opts.destinationFolderSimplification
    opts.destinationFolderSimplification (normSlashes filePath)).2

/-- The closure constant `ESM_SRC = path.join(options.repoRoot,
options.esmSource)`. -/
def esmSrcDir (opts : IOptions) : Str := pathJoinList [opts.repoRoot, opts.esmSource]

/-- The closure constant `ESM_DEST = path.join(options.repoRoot,
options.esmDestination)`. -/
def esmDestDir (opts : IOptions) : Str :=
  pathJoinList [opts.repoRoot, opts.esmDestination]

/-- `computeDestinationFilePath` of the source.  A path recognized as
one of our sources (by the prefix test `filePath.indexOf(ESM_SRC) ===
0`) maps structure-preservingly below `ESM_DEST`; any other path maps
below `ESM_DEST` at its position relative to the repository root, with
the folder simplifications applied and the result normalized. -/
def computeDestinationFilePath (fuel : Nat) (opts : IOptions) (filePath : Str) : Str :=
  if (esmSrcDir opts).isPrefixOf filePath then
    pathJoinList [esmDestDir opts, pathRelative (esmSrcDir opts) filePath]
  else
    pathNormalize (applyDestinationFolderSimplifications fuel opts
      (pathJoinList [esmDestDir opts, pathRelative opts.repoRoot filePath]))

/-! ## The worklist engine -/

/-- `shouldSkipImport` of the source: does some configured skip entry
satisfy `importText.indexOf(skip) === 0`, i.e. occur as a left-anchored
prefix of the specifier? -/
def shouldSkipImport (opts : IOptions) (importText : Str) : Bool :=
  opts.resolveSkip.any (fun skip => skip.isPrefixOf importText)

/-- Lines 143-148 of the source: an alias-table hit short-circuits
resolution, otherwise `findNodeModuleImport` runs.  The source tests
`if (options.resolveAlias[importText])`, a JavaScript truthiness test,
so an alias bound to the empty string is treated as absent. -/
def resolveNonRelativeImport (env : Env) (opts : IOptions)
    (filePath importText : Str) : Except RunError Str :=
  match assocLookup opts.resolveAlias importText with
  | some v =>
    if v = [] then findNodeModuleImport env opts.repoRoot importText filePath
    else .ok v
  | none => findNodeModuleImport env opts.repoRoot importText filePath

/-- The resolved target of a relative import:
`path.join(path.dirname(filePath), importText) + '.js'`. -/
def relImportTarget (filePath importText : Str) : Str :=
  pathJoinList [pathDirname filePath, importText] ++ str ".js"

/-- The replacement specifier computed for a non-relative import (lines
150-158 of the source): the relative path between the two destination
paths, `./`-prefixed when not already relative-form, slashes
normalized, trailing `.js` stripped. -/
def computeImportReplacement (fuel : Nat) (opts : IOptions)
    (filePath importedFilename : Str) : Str :=
  let myDestinationPath := computeDestinationFilePath fuel opts filePath
  let importDestinationPath := computeDestinationFilePath fuel opts importedFilename
  let relativePath := pathRelative (pathDirname myDestinationPath) importDestinationPath
  let relativePath :=
    if isRelativeSpecifier relativePath then relativePath else str "./" ++ relativePath
  stripDotJs (normSlashes relativePath)

/-- The splice `fileContents.substring(0, pos + 1) + relativePath +
fileContents.substring(end + 1)` (lines 160-164 of the source). -/
def splice (s : Str) (pos end_ : Nat) (r : Str) : Str :=
  s.take (pos + 1) ++ r ++ s.drop (end_ + 1)

/-- The traversal state of one run.  `in_queue` and `queue` are the
source's deduplication set and FIFO queue; since `in_queue` only ever
grows by appending a fresh path, the list doubles as the log of enqueue
events.  `processed` logs each dequeued (hence read) file in order, and
`writes` logs each `write` call as `(source path, destination path,
contents written)`; both are instrumentation of effects the source
performs directly against the filesystem. -/
structure TraversalState where
  in_queue : List Str
  queue : List Str
  processed : List Str
  writes : List (Str × Str × Str)
deriving DecidableEq

/-- `enqueue` of the source: a path already in the deduplication set is
dropped; otherwise it is recorded and pushed at the back of the queue. -/
def enqueue (st : TraversalState) (filePath : Str) : TraversalState :=
  if filePath ∈ st.in_queue then st
  else { st with in_queue := st.in_queue ++ [filePath], queue := st.queue ++ [filePath] }

/-- The body of the `for` loop over one scanned import reference (lines
125-168 of the source): skip-listed specifiers are ignored entirely;
relative specifiers enqueue their target with the contents untouched;
other specifiers resolve (alias or node_modules, possibly failing),
splice the computed replacement over the specifier span, and enqueue
the resolved target. -/
def processImport (fuel : Nat) (env : Env) (opts : IOptions) (filePath : Str)
    (acc : Str × TraversalState) (ref : FileReference) :
    Except RunError (Str × TraversalState) :=
  if shouldSkipImport opts ref.fileName then .ok acc
  else if isRelativeSpecifier ref.fileName then
    .ok (acc.1, enqueue acc.2 (relImportTarget filePath ref.fileName))
  else
    match resolveNonRelativeImport env opts filePath ref.fileName with
    | .error e => .error e
    | .ok importedFilename =>
      .ok (splice acc.1 ref.pos ref.end_
             (computeImportReplacement fuel opts filePath importedFilename),
           enqueue acc.2 importedFilename)

/-- Sequential processing of a list of import references, aborting at
the first resolution error. -/
def processImports (fuel : Nat) (env : Env) (opts : IOptions) (filePath : Str) :
    List FileReference → Str × TraversalState → Except RunError (Str × TraversalState)
  | [], acc => .ok acc
  | ref :: rest, acc =>
    match processImport fuel env opts filePath acc ref with
    | .error e => .error e
    | .ok acc' => processImports fuel env opts filePath rest acc'

/-- Processing of one dequeued file's contents: the scanned references
are handled in reverse discovery order (the source iterates `i` from
`importedFiles.length - 1` down to `0`). -/
def processFile (fuel : Nat) (env : Env) (opts : IOptions)
    (filePath contents : Str) (st : TraversalState) :
    Except RunError (Str × TraversalState) :=
  processImports fuel env opts filePath (env.preProcessFile contents).reverse (contents, st)

/-- The `write` call at the end of one worklist iteration: the file is
logged as processed and its rewritten contents are written at its
computed destination path. -/
def stepWrite (fuel : Nat) (opts : IOptions) (st : TraversalState)
    (filePath newContents : Str) : TraversalState :=
  { st with
    processed := st.processed ++ [filePath],
    writes := st.writes ++
      [(filePath, computeDestinationFilePath fuel opts filePath, newContents)] }

/-- The `while (queue.length > 0)` worklist loop, fuel-bounded: dequeue
the head, read it, process its imports, write the result, repeat. -/
def runLoop (fuel : Nat) (env : Env) (opts : IOptions) :
    Nat → TraversalState → Except RunError TraversalState
  | 0, st => if st.queue = [] then .ok st else .error .outOfFuel
  | loopFuel + 1, st =>
    match st.queue with
    | [] => .ok st
    | filePath :: rest =>
      match env.readFile filePath with
      | none => .error (.readError filePath)
      | some fileContents =>
        match processFile fuel env opts filePath fileContents { st with queue := rest } with
        | .error e => .error e
        | .ok (newContents, st') =>
          runLoop fuel env opts loopFuel (stepWrite fuel opts st' filePath newContents)

/-- Seeding of the queue: each entry point, joined below `ESM_SRC`, is
enqueued (lines 115-117 of the source). -/
def seedState (opts : IOptions) : TraversalState :=
  opts.entryPoints.foldl (fun st e => enqueue st (pathJoinList [esmSrcDir opts, e]))
    ⟨[], [], [], []⟩

/-- Line 39 of the source: `options.repoRoot =
path.normalize(options.repoRoot).replace(/(\/|\\)$/, '')`, an in-place
mutation of the caller's options object performed before any other
work. -/
def mutatedOptions (opts : IOptions) : IOptions :=
  { opts with repoRoot := stripTrailingSep (pathNormalize opts.repoRoot) }

instance {ε α : Type} [DecidableEq ε] [DecidableEq α] : DecidableEq (Except ε α) :=
  fun a b =>
    match a, b with
    | .ok x, .ok y =>
      if h : x = y then .isTrue (by rw [h])
      else .isFalse (by intro hh; cases hh; exact h rfl)
    | .error x, .error y =>
      if h : x = y then .isTrue (by rw [h])
      else .isFalse (by intro hh; cases hh; exact h rfl)
    | .ok _, .error _ => .isFalse (by intro hh; cases hh)
    | .error _, .ok _ => .isFalse (by intro hh; cases hh)

/-- The outcome of one `_packageESM` call: the options record as the
caller observes it after the call (the source mutates it in place), and
either the final traversal state or the error thrown. -/
structure RunResult where
  options : IOptions
  result : Except RunError TraversalState
deriving DecidableEq

/-- `_packageESM` of the source, fuel-bounded: mutate `repoRoot`, seed
the queue with the entry points, and drain the worklist. -/
def _packageESM (opts : IOptions) (env : Env) (loopFuel fuel : Nat) : RunResult :=
  let o := mutatedOptions opts
  { options := o, result := runLoop fuel env o loopFuel (seedState o) }

/-! ## Specification-side notions

The following definitions restate, independently of the worklist code,
what the spec asserts: reachability through non-skipped imports, the
queue bookkeeping invariant, the per-file output decomposition, and
exhaustive substring replacement.  The theorems below relate them to
the embedded source functions. -/

/-- The files transitively reachable from the entry points via
non-skipped imports: the entry points themselves (joined below
`ESM_SRC`), the target of every non-skipped relative import of a
reachable readable file, and the successfully resolved target of every
non-skipped bare import of a reachable readable file. -/
inductive Reachable (env : Env) (opts : IOptions) : Str → Prop
  | entry (e : Str) (he : e ∈ opts.entryPoints) :
      Reachable env opts (pathJoinList [esmSrcDir opts, e])
  | relStep {f c : Str} {ref : FileReference}
      (hf : Reachable env opts f) (hc : env.readFile f = some c)
      (hm : ref ∈ env.preProcessFile c)
      (hskip : shouldSkipImport opts ref.fileName = false)
      (hrel : isRelativeSpecifier ref.fileName = true) :
      Reachable env opts (relImportTarget f ref.fileName)
  | bareStep {f c t : Str} {ref : FileReference}
      (hf : Reachable env opts f) (hc : env.readFile f = some c)
      (hm : ref ∈ env.preProcessFile c)
      (hskip : shouldSkipImport opts ref.fileName = false)
      (hrel : isRelativeSpecifier ref.fileName = false)
      (hres : resolveNonRelativeImport env opts f ref.fileName = .ok t) :
      Reachable env opts t

/-- The queue bookkeeping invariant, with `S` the list of files already
handed off: the deduplication set is duplicate-free and holds exactly
the handed-off files plus the still-queued files, without overlap. -/
def QueueAccounted (S : List Str) (st : TraversalState) : Prop :=
  st.in_queue.Nodup
    ∧ (∀ x, x ∈ st.in_queue ↔ x ∈ S ++ st.queue)
    ∧ (S ++ st.queue).Nodup

/-- `q` is the traversal target contributed by the scanned reference
`ref` of file `f`: a non-skipped relative import's joined target, or a
non-skipped bare import's successfully resolved target. -/
def ImportTargetOf (env : Env) (opts : IOptions) (f : Str) (ref : FileReference)
    (q : Str) : Prop :=
  shouldSkipImport opts ref.fileName = false
    ∧ ((isRelativeSpecifier ref.fileName = true ∧ q = relImportTarget f ref.fileName)
       ∨ (isRelativeSpecifier ref.fileName = false
          ∧ resolveNonRelativeImport env opts f ref.fileName = .ok q))

/-- Every non-skipped import of the processed file `p` contributed its
target to the deduplication set of state `st'`. -/
def ProcessedFileTargets (env : Env) (opts : IOptions) (p : Str)
    (st' : TraversalState) : Prop :=
  ∀ c, env.readFile p = some c → ∀ ref ∈ env.preProcessFile c,
    shouldSkipImport opts ref.fileName = false →
      (isRelativeSpecifier ref.fileName = true →
        relImportTarget p ref.fileName ∈ st'.in_queue)
      ∧ (isRelativeSpecifier ref.fileName = false →
          ∃ t, resolveNonRelativeImport env opts p ref.fileName = .ok t
            ∧ t ∈ st'.in_queue)

/-- What ends up at a scanned reference's span in the written output:
skipped and relative specifiers keep their original text, bare
specifiers are replaced by the computed relative specifier.  (The error
branch is never taken in a run that returns normally; its value is the
unchanged span.) -/
def newSpanText (fuel : Nat) (env : Env) (opts : IOptions) (filePath s : Str)
    (ref : FileReference) : Str :=
  if shouldSkipImport opts ref.fileName then listExtract s (ref.pos + 1) (ref.end_ + 1)
  else if isRelativeSpecifier ref.fileName then
    listExtract s (ref.pos + 1) (ref.end_ + 1)
  else
    match resolveNonRelativeImport env opts filePath ref.fileName with
    | .ok t => computeImportReplacement fuel opts filePath t
    | .error _ => listExtract s (ref.pos + 1) (ref.end_ + 1)

/-- The expected output text from position `i` on: the original text up
to each successive span, the span's `newSpanText`, and the original
tail after the last span.  This decomposition makes the frame property
syntactically evident: all bytes outside the spans are copied from the
source text. -/
def assembleFrom (fuel : Nat) (env : Env) (opts : IOptions) (filePath s : Str) :
    Nat → List FileReference → Str
  | i, [] => s.drop i
  | i, ref :: rest =>
    listExtract s i (ref.pos + 1) ++ newSpanText fuel env opts filePath s ref
      ++ assembleFrom fuel env opts filePath s (ref.end_ + 1) rest

/-- Scanner well-formedness for one file: the reported spans appear in
increasing order, are pairwise disjoint, and lie within the text.  This
is the contract of the external `ts.preProcessFile` scanner. -/
def SpansWellFormed (s : Str) (refs : List FileReference) : Prop :=
  List.Pairwise (fun a b => a.end_ ≤ b.pos) refs
    ∧ ∀ ref ∈ refs, ref.pos ≤ ref.end_ ∧ ref.end_ + 1 ≤ s.length

/-- The scanner reports well-formed spans for every text. -/
def ScannerOK (env : Env) : Prop :=
  ∀ c, SpansWellFormed c (env.preProcessFile c)

/-- One step of the simplification `while` loop: the pattern occurs and
is replaced at its first occurrence. -/
def replStep (pat rep a b : Str) : Prop :=
  occursIn a pat = true ∧ b = replaceFirst a pat rep

/-- `b` is obtained from `a` by replacing occurrences of `pat` with
`rep` repeatedly until no occurrence remains. -/
def ExhaustsTo (pat rep a b : Str) : Prop :=
  Relation.ReflTransGen (replStep pat rep) a b ∧ occursIn b pat = false

/-- The whole rule list applied in order, each rule's (separator
normalized) pattern exhausted with the replacement the source actually
uses (`simplRep`, looked up by the normalized pattern). -/
inductive SimplChain (table : List (Str × Str)) :
    List (Str × Str) → Str → Str → Prop
  | nil (s : Str) : SimplChain table [] s s
  | cons {key v : Str} {rest : List (Str × Str)} {s mid r : Str}
      (h1 : ExhaustsTo (normSlashes key) (simplRep table (normSlashes key)) s mid)
      (h2 : SimplChain table rest mid r) :
      SimplChain table ((key, v) :: rest) s r

/-! ## Concrete configurations used by the witnesses and
counterexamples -/

/-- A minimal configuration: repository `/r`, sources under `src`,
output under `out`, a single entry point `a.js`, no aliases, no skip
list, no simplifications. -/
def optsW : IOptions :=
  { repoRoot := str "/r", esmSource := str "src", esmDestination := str "out",
    entryPoints := [str "a.js"], resolveAlias := [], resolveSkip := [],
    destinationFolderSimplification := [] }

/-- A filesystem with the single source file `/r/src/a.js` containing
text free of imports, and a scanner that reports no imports. -/
def envW : Env :=
  { existsSync := fun _ => false,
    readFile := fun p => if p = str "/r/src/a.js" then some (str "let x = 1;") else none,
    readJson := fun _ => none,
    preProcessFile := fun _ => [] }

/-- `optsW` with the bare specifier `m` aliased to the empty string. -/
def optsAliasEmpty : IOptions := { optsW with resolveAlias := [(str "m", str "")] }

/-- `optsW` with the bare specifier `m` aliased to `/alias/lib.js`. -/
def optsAliasLib : IOptions :=
  { optsW with resolveAlias := [(str "m", str "/alias/lib.js")] }

/-- A filesystem holding an installed package `m` at
`/r/node_modules/m` whose manifest declares `module: "index.js"`, with
the declared entry file present. -/
def envNM : Env :=
  { existsSync := fun p =>
      p = str "/r/node_modules/m" ∨ p = str "/r/node_modules/m/package.json"
        ∨ p = str "/r/node_modules/m/index.js",
    readFile := fun _ => none,
    readJson := fun p =>
      if p = str "/r/node_modules/m/package.json" then
        some (.obj [(str "module", .jstr (str "index.js"))])
      else none,
    preProcessFile := fun _ => [] }

/-- `optsW` with one folder simplification whose key contains a
backslash: the key `a\b` (written with a source-level escape) with
configured replacement `X`. -/
def optsBackslashKey : IOptions :=
  { optsW with destinationFolderSimplification := [(str "a\\b", str "X")] }

/-- `optsW` with the ordinary folder simplification `deps` -> `d`. -/
def optsSimplDeps : IOptions :=
  { optsW with destinationFolderSimplification := [(str "deps", str "d")] }

/-- The final state of the witness run of `_packageESM` on `optsW` and
`envW` (extracted from the run's result; the extraction is the identity
because the run returns normally). -/
def stW : TraversalState :=
  ((_packageESM optsW envW 2 1).result).toOption.getD ⟨[], [], [], []⟩

/-! ## C10: in-place mutation of `options.repoRoot` -/

/-- C10: `packageESM` mutates its options argument in place: before any
other work, `options.repoRoot` is overwritten with its normalized form
with any single trailing path separator stripped, and this change is
observable to the caller after the call returns (the model returns the
caller-visible options record in the `options` field); no other field
of the options is modified by a run. -/
theorem packageESM_mutates_repoRoot_only (opts : IOptions) (env : Env)
    (loopFuel fuel : Nat) :
    (_packageESM opts env loopFuel fuel).options.repoRoot
        = stripTrailingSep (pathNormalize opts.repoRoot)
    ∧ (_packageESM opts env loopFuel fuel).options.esmSource = opts.esmSource
    ∧ (_packageESM opts env loopFuel fuel).options.esmDestination = opts.esmDestination
    ∧ (_packageESM opts env loopFuel fuel).options.entryPoints = opts.entryPoints
    ∧ (_packageESM opts env loopFuel fuel).options.resolveAlias = opts.resolveAlias
    ∧ (_packageESM opts env loopFuel fuel).options.resolveSkip = opts.resolveSkip
    ∧ (_packageESM opts env loopFuel fuel).options.destinationFolderSimplification
        = opts.destinationFolderSimplification
    ∧ (_packageESM opts env loopFuel fuel).result
        = runLoop fuel env (mutatedOptions opts) loopFuel (seedState (mutatedOptions opts)) :=
  ⟨rfl, rfl, rfl, rfl, rfl, rfl, rfl, rfl⟩

/-! ## C5: alias-table resolution -/

/-- C5 counterexample: with the alias table binding the specifier `m`
to the empty string, an alias entry exists for `m`, yet resolution does
not return that entry's path — it consults the filesystem and returns
the `node_modules` entry file instead, because the source's truthiness
test `if (options.resolveAlias[importText])` treats the empty string as
absent. -/
theorem alias_empty_entry_is_ignored :
    assocLookup optsAliasEmpty.resolveAlias (str "m") = some (str "")
    ∧ resolveNonRelativeImport envNM optsAliasEmpty (str "/r/src/a.js") (str "m")
        = .ok (str "/r/node_modules/m/index.js")
    ∧ Except.ok (str "/r/node_modules/m/index.js")
        ≠ (Except.ok (str "") : Except RunError Str) := by
  refine ⟨by decide, by decide, by decide⟩

/-- C5 (amended): for every bare (non-relative, non-skipped) specifier,
if an alias table entry exists for the exact specifier text and is a
non-empty string then resolution returns that entry's literal path
without consulting the filesystem (the conclusion holds for every
filesystem `env`); if the entry is the empty string, or no entry
exists, resolution delegates to the third-party (`node_modules`)
resolver. -/
theorem resolveNonRelativeImport_alias_rule (env : Env) (opts : IOptions)
    (filePath importText v : Str) :
    (assocLookup opts.resolveAlias importText = some v → v ≠ [] →
       resolveNonRelativeImport env opts filePath importText = .ok v)
    ∧ (assocLookup opts.resolveAlias importText = some v → v = [] →
       resolveNonRelativeImport env opts filePath importText
         = findNodeModuleImport env opts.repoRoot importText filePath)
    ∧ (assocLookup opts.resolveAlias importText = none →
       resolveNonRelativeImport env opts filePath importText
         = findNodeModuleImport env opts.repoRoot importText filePath) := by
  unfold resolveNonRelativeImport
  refine ⟨fun h hne => ?_, fun h he => ?_, fun h => ?_⟩
  · rw [h]; simp [hne]
  · rw [h, he]; simp
  · rw [h]

/-- C5 witness: with `m` aliased to `/alias/lib.js`, resolution returns
exactly that path. -/
theorem resolveNonRelativeImport_alias_rule_witness :
    resolveNonRelativeImport envNM optsAliasLib (str "/r/src/a.js") (str "m")
      = .ok (str "/alias/lib.js") :=
  (resolveNonRelativeImport_alias_rule envNM optsAliasLib (str "/r/src/a.js")
    (str "m") (str "/alias/lib.js")).1 (by decide) (by decide)

/-! ## C7: manifest checks of the third-party resolver -/

/-- C7: once a package directory is located, resolution fails with an
error naming the manifest path if the manifest does not exist; fails
with an error naming the manifest path if the manifest's `module` field
is absent or not a string; fails with an error naming the computed path
if the file named by joining the package directory with the field's
value does not exist; and otherwise returns that joined path. -/
theorem findNodeModuleImport_manifest_checks (env : Env)
    (repoRoot module sourceFilePath modulePath : Str)
    (h : findNodeModule env repoRoot module sourceFilePath = .ok modulePath) :
    (env.existsSync (pathJoinList [modulePath, str "package.json"]) = false →
       findNodeModuleImport env repoRoot module sourceFilePath
         = .error (.missingPackageJson (pathJoinList [modulePath, str "package.json"])
             modulePath))
    ∧ (∀ j, env.existsSync (pathJoinList [modulePath, str "package.json"]) = true →
         env.readJson (pathJoinList [modulePath, str "package.json"]) = some j →
         (∀ m, jsonField j (str "module") ≠ some (.jstr m)) →
         findNodeModuleImport env repoRoot module sourceFilePath
           = .error (.missingModuleField (pathJoinList [modulePath, str "package.json"])))
    ∧ (∀ j m, env.existsSync (pathJoinList [modulePath, str "package.json"]) = true →
         env.readJson (pathJoinList [modulePath, str "package.json"]) = some j →
         jsonField j (str "module") = some (.jstr m) →
         env.existsSync (pathJoinList [modulePath, m]) = false →
         findNodeModuleImport env repoRoot module sourceFilePath
           = .error (.missingFile (pathJoinList [modulePath, m])))
    ∧ (∀ j m, env.existsSync (pathJoinList [modulePath, str "package.json"]) = true →
         env.readJson (pathJoinList [modulePath, str "package.json"]) = some j →
         jsonField j (str "module") = some (.jstr m) →
         env.existsSync (pathJoinList [modulePath, m]) = true →
         findNodeModuleImport env repoRoot module sourceFilePath
           = .ok (pathJoinList [modulePath, m])) := by
  unfold findNodeModuleImport
  rw [h]
  dsimp only
  refine ⟨fun hex => ?_, fun j hex hj hns => ?_, fun j m hex hj hs hex2 => ?_,
    fun j m hex hj hs hex2 => ?_⟩
  · simp [hex]
  · simp only [hex, hj, if_true]
  · simp [hex, hj, hs, hex2]
  · simp [hex, hj, hs, hex2]

/-! ## C6: the ancestor walk of `generatePaths` / `findNodeModule` -/

/-- Taking the dirname of a path of length at least two strictly
shortens it; this is what makes the source's `while (sourceDir.length
>= repoRoot.length)` loop terminate for any repository root of length
at least two. -/
theorem pathDirname_length_lt (s : Str) (h : 2 ≤ s.length) :
    (pathDirname s).length < s.length := by
  have hne : ¬ s = [] := by
    intro he; rw [he] at h; simp at h
  have hlen : ((s.reverse.dropWhile (fun c => c = '/')).dropWhile
      (fun c => c ≠ '/')).length ≤ s.length := by
    calc ((s.reverse.dropWhile (fun c => c = '/')).dropWhile (fun c => c ≠ '/')).length
        ≤ (s.reverse.dropWhile (fun c => c = '/')).length :=
          List.Sublist.length_le (List.dropWhile_sublist _)
      _ ≤ s.reverse.length := List.Sublist.length_le (List.dropWhile_sublist _)
      _ = s.length := List.length_reverse s
  have h1 : (str "/").length = 1 := by decide
  have h2 : (str ".").length = 1 := by decide
  unfold pathDirname
  rw [if_neg hne]
  dsimp only
  cases hdw : (s.reverse.dropWhile (fun c => c = '/')).dropWhile (fun c => c ≠ '/') with
  | nil =>
    dsimp only
    split <;> omega
  | cons c rest =>
    dsimp only
    rw [hdw] at hlen
    simp only [List.length_cons] at hlen
    by_cases hr : rest = []
    · rw [if_pos hr]; omega
    · rw [if_neg hr, List.length_reverse]
      have hrp : 0 < rest.length := List.length_pos.mpr hr
      omega

/-- `pathDirname_length_lt` specialized as a witness check on a
concrete path. -/
theorem pathDirname_length_lt_witness :
    (pathDirname (str "/r/src/a.js")).length < (str "/r/src/a.js").length :=
  pathDirname_length_lt (str "/r/src/a.js") (by decide)

/-- The candidate list built by the fuel-bounded walk is exactly the
`pathDirname` iterates of the start directory whose length is still at
least the repository root's length, each wrapped as
`<dir>/node_modules/<module>`, provided the fuel exceeds the start
directory's length and the root has length at least two. -/
theorem generatePathsAux_chain (repoRoot module : Str) (hroot : 2 ≤ repoRoot.length) :
    ∀ fuel dir, dir.length < fuel →
    ∃ k, generatePathsAux repoRoot module fuel dir
          = (List.range k).map
              (fun i => pathJoinList [pathDirname^[i] dir, str "node_modules", module])
        ∧ (∀ i, i < k → repoRoot.length ≤ (pathDirname^[i] dir).length)
        ∧ (pathDirname^[k] dir).length < repoRoot.length := by
  intro fuel
  induction fuel with
  | zero => intro dir hd; omega
  | succ n ih =>
    intro dir hd
    unfold generatePathsAux
    by_cases hg : repoRoot.length ≤ dir.length
    · rw [if_pos hg]
      have hd2 : 2 ≤ dir.length := le_trans hroot hg
      have hlt : (pathDirname dir).length < dir.length := pathDirname_length_lt dir hd2
      obtain ⟨k, hlist, hall, hstop⟩ := ih (pathDirname dir) (by omega)
      refine ⟨k + 1, ?_, ?_, ?_⟩
      · rw [List.range_succ_eq_map, List.map_cons, Function.iterate_zero_apply, hlist,
          List.map_map]
        congr 1
      · intro i hi
        cases i with
        | zero => simpa using hg
        | succ i' =>
          rw [Function.iterate_succ_apply]
          exact hall i' (by omega)
      · rw [Function.iterate_succ_apply]
        exact hstop
    · rw [if_neg hg]
      refine ⟨0, by simp, fun i hi => absurd hi (Nat.not_lt_zero i), ?_⟩
      rw [Function.iterate_zero_apply]
      omega

/-- The `for` loop of `findNodeModule` returns the first existing
candidate, else the module-not-found error. -/
theorem findNodeModuleLoop_eq_find (env : Env) (module sourceFilePath : Str) :
    ∀ l, findNodeModuleLoop env module sourceFilePath l
      = (match l.find? env.existsSync with
         | some p => .ok p
         | none => .error (.cannotFindModule module sourceFilePath)) := by
  intro l
  induction l with
  | nil => rfl
  | cons p rest ih =>
    unfold findNodeModuleLoop
    rw [List.find?_cons]
    cases hex : env.existsSync p with
    | true => simp [hex]
    | false => simp [hex, ih]

/-- C6: third-party resolution for package `module` imported from
`sourceFilePath` tests candidate directories `<dir>/node_modules/<module>`
for each `pathDirname`-ancestor `<dir>` of the importing file, starting
at the file's directory and walking upward, testing exactly those
ancestors whose length is at least the repository root's length (so the
walk stops once the current directory is shorter than the root, the
root itself being the last directory it can test); the first candidate
that exists on disk is selected, and if none exists the run aborts with
an error naming both the module and the importing file.  The root-length
hypothesis rules out the degenerate roots (length below two, e.g. `/`)
on which the source's `while` loop never terminates. -/
theorem findNodeModule_walks_ancestors (env : Env)
    (repoRoot module sourceFilePath : Str) (hroot : 2 ≤ repoRoot.length) :
    (∃ k, generatePaths repoRoot module sourceFilePath
          = (List.range k).map
              (fun i => pathJoinList
                [pathDirname^[i] (pathDirname sourceFilePath), str "node_modules", module])
        ∧ (∀ i, i < k →
            repoRoot.length ≤ (pathDirname^[i] (pathDirname sourceFilePath)).length)
        ∧ (pathDirname^[k] (pathDirname sourceFilePath)).length < repoRoot.length)
    ∧ findNodeModule env repoRoot module sourceFilePath
        = (match (generatePaths repoRoot module sourceFilePath).find? env.existsSync with
           | some p => .ok p
           | none => .error (.cannotFindModule module sourceFilePath)) := by
  constructor
  · exact generatePathsAux_chain repoRoot module hroot
      ((pathDirname sourceFilePath).length + 1) (pathDirname sourceFilePath)
      (Nat.lt_succ_self _)
  · exact findNodeModuleLoop_eq_find env module sourceFilePath _

/-- C6 witness: on the concrete `envNM` filesystem, resolution for `m`
from `/r/src/a.js` selects `/r/node_modules/m` (the nearer candidate
`/r/src/node_modules/m` does not exist). -/
theorem findNodeModule_walks_ancestors_witness :
    findNodeModule envNM (str "/r") (str "m") (str "/r/src/a.js")
      = .ok (str "/r/node_modules/m") :=
  ((findNodeModule_walks_ancestors envNM (str "/r") (str "m") (str "/r/src/a.js")
    (by decide)).2).trans (by decide)

/-! ## C9: the computed replacement specifier -/

/-- C9: for a non-skipped, non-relative import that resolves to
`target`, the processing step splices, over exactly the
scanner-reported specifier span `[pos+1, end+1)`, the replacement
obtained as the relative path from the importing file's destination
directory to the target's destination path, `./`-prefixed when it does
not already begin with `./` or `../`, with separators normalized to
forward slashes and a trailing `.js` stripped; and it enqueues the
resolved target. -/
theorem processImport_rewrites_bare (fuel : Nat) (env : Env) (opts : IOptions)
    (filePath contents : Str) (st : TraversalState) (ref : FileReference)
    (target : Str)
    (hskip : shouldSkipImport opts ref.fileName = false)
    (hrel : isRelativeSpecifier ref.fileName = false)
    (hres : resolveNonRelativeImport env opts filePath ref.fileName = .ok target) :
    processImport fuel env opts filePath (contents, st) ref
      = .ok (splice contents ref.pos ref.end_
               (computeImportReplacement fuel opts filePath target),
             enqueue st target)
    ∧ computeImportReplacement fuel opts filePath target
      = stripDotJs (normSlashes
          (if isRelativeSpecifier
               (pathRelative
                 (pathDirname (computeDestinationFilePath fuel opts filePath))
                 (computeDestinationFilePath fuel opts target))
           then pathRelative
                 (pathDirname (computeDestinationFilePath fuel opts filePath))
                 (computeDestinationFilePath fuel opts target)
           else str "./" ++ pathRelative
                 (pathDirname (computeDestinationFilePath fuel opts filePath))
                 (computeDestinationFilePath fuel opts target)))
    ∧ splice contents ref.pos ref.end_
        (computeImportReplacement fuel opts filePath target)
      = contents.take (ref.pos + 1)
          ++ computeImportReplacement fuel opts filePath target
          ++ contents.drop (ref.end_ + 1) := by
  refine ⟨?_, ?_, rfl⟩
  · unfold processImport
    rw [hskip, hrel]
    simp only [Bool.false_eq_true, if_false]
    rw [hres]
  · unfold computeImportReplacement
    dsimp only

/-- C9 witness: with `m` aliased to `/alias/lib.js` and a scanned
reference to `m` spanning `[8, 10]` of a concrete file text, the step
produces exactly the spliced text and enqueues the alias target. -/
theorem processImport_rewrites_bare_witness :
    processImport 1 envNM optsAliasLib (str "/r/src/a.js")
        (str "import a 'm';", ⟨[], [], [], []⟩) ⟨str "m", 9, 10⟩
      = .ok (splice (str "import a 'm';") 9 10
               (computeImportReplacement 1 optsAliasLib (str "/r/src/a.js")
                 (str "/alias/lib.js")),
             enqueue ⟨[], [], [], []⟩ (str "/alias/lib.js")) :=
  (processImport_rewrites_bare 1 envNM optsAliasLib (str "/r/src/a.js")
    (str "import a 'm';") ⟨[], [], [], []⟩ ⟨str "m", 9, 10⟩ (str "/alias/lib.js")
    (by decide) (by decide) (by decide)).1

/-! ## C3: reverse-order processing and offset stability -/

/-- C3: within a single file the scanned references are processed in
reverse discovery order (`processFile` folds over the scanner's list
reversed), and under this order a splice over the span of reference
`ref` replaces exactly the half-open slice `[pos+1, end+1)` while
leaving every earlier (not yet processed) reference's span — both its
offsets and the text they address — untouched. -/
theorem splice_preserves_earlier_spans (fuel : Nat) (env : Env) (opts : IOptions)
    (filePath contents : Str) (st : TraversalState)
    (s r : Str) (ref ref' : FileReference)
    (hb : ref.pos + 1 ≤ s.length)
    (hwf : ref'.pos ≤ ref'.end_)
    (horder : ref'.end_ + 1 ≤ ref.pos + 1) :
    processFile fuel env opts filePath contents st
      = processImports fuel env opts filePath
          (env.preProcessFile contents).reverse (contents, st)
    ∧ splice s ref.pos ref.end_ r
      = s.take (ref.pos + 1) ++ r ++ s.drop (ref.end_ + 1)
    ∧ listExtract (splice s ref.pos ref.end_ r) (ref'.pos + 1) (ref'.end_ + 1)
      = listExtract s (ref'.pos + 1) (ref'.end_ + 1) := by
  refine ⟨rfl, rfl, ?_⟩
  unfold splice listExtract
  have hlenA : (s.take (ref.pos + 1)).length = ref.pos + 1 :=
    List.length_take_of_le hb
  rw [List.append_assoc, List.drop_append_eq_append_drop, hlenA]
  have h0 : ref'.pos + 1 - (ref.pos + 1) = 0 := by omega
  rw [h0, List.drop_zero, List.take_append_eq_append_take]
  have h1 : (s.take (ref.pos + 1)).drop (ref'.pos + 1)
      = (s.drop (ref'.pos + 1)).take (ref.pos - ref'.pos) := by
    rw [List.drop_take]
    congr 1
    omega
  have h2 : ref'.end_ + 1 - (ref'.pos + 1) ≤
      ((s.take (ref.pos + 1)).drop (ref'.pos + 1)).length := by
    rw [List.length_drop, hlenA]
    omega
  rw [Nat.sub_eq_zero_of_le h2, List.take_zero, List.append_nil, h1, List.take_take]
  congr 1
  omega

/-- C3 witness: splicing the replacement `XYZ` over the span `[6, 8]`
of a ten-character text replaces exactly that slice and leaves the
earlier span `[2, 3]` reading the same text as before. -/
theorem splice_preserves_earlier_spans_witness :
    splice (str "0123456789") 5 7 (str "XYZ")
      = (str "0123456789").take 6 ++ str "XYZ" ++ (str "0123456789").drop 8
    ∧ listExtract (splice (str "0123456789") 5 7 (str "XYZ")) 2 4
      = listExtract (str "0123456789") 2 4 :=
  ⟨(splice_preserves_earlier_spans 1 envW optsW (str "f") (str "c") ⟨[], [], [], []⟩
      (str "0123456789") (str "XYZ") ⟨str "a", 5, 7⟩ ⟨str "b", 1, 3⟩
      (by decide) (by decide) (by decide)).2.1,
   (splice_preserves_earlier_spans 1 envW optsW (str "f") (str "c") ⟨[], [], [], []⟩
      (str "0123456789") (str "XYZ") ⟨str "a", 5, 7⟩ ⟨str "b", 1, 3⟩
      (by decide) (by decide) (by decide)).2.2⟩

/-! ## Worklist lemmas (used by C1, C2 and C4) -/

theorem enqueue_processed (st : TraversalState) (p : Str) :
    (enqueue st p).processed = st.processed := by
  unfold enqueue; split <;> rfl

theorem enqueue_writes (st : TraversalState) (p : Str) :
    (enqueue st p).writes = st.writes := by
  unfold enqueue; split <;> rfl

theorem mem_enqueue_self (st : TraversalState) (p : Str) :
    p ∈ (enqueue st p).in_queue := by
  unfold enqueue
  split
  · assumption
  · simp

theorem mem_enqueue_of_mem {st : TraversalState} {q : Str} (p : Str)
    (h : q ∈ st.in_queue) : q ∈ (enqueue st p).in_queue := by
  unfold enqueue
  split
  · exact h
  · simp [h]

theorem mem_of_mem_enqueue {st : TraversalState} {p q : Str}
    (h : q ∈ (enqueue st p).in_queue) : q ∈ st.in_queue ∨ q = p := by
  unfold enqueue at h
  split at h
  · exact .inl h
  · simpa using h

theorem enqueue_accounted {S : List Str} {st : TraversalState} (p : Str)
    (h : QueueAccounted S st) : QueueAccounted S (enqueue st p) := by
  obtain ⟨h1, h2, h3⟩ := h
  unfold enqueue
  split
  · exact ⟨h1, h2, h3⟩
  · rename_i hnot
    have hp : p ∉ S ++ st.queue := fun hmem => hnot ((h2 p).mpr hmem)
    refine ⟨?_, ?_, ?_⟩
    · dsimp only
      rw [List.nodup_append]
      exact ⟨h1, List.nodup_singleton p,
        fun a ha hb => by simp at hb; subst hb; exact hnot ha⟩
    · intro x
      dsimp only
      rw [← List.append_assoc, List.mem_append, List.mem_append, h2 x,
        List.mem_append]
    · dsimp only
      rw [← List.append_assoc, List.nodup_append]
      exact ⟨h3, List.nodup_singleton p,
        fun a ha hb => by simp at hb; subst hb; exact hp ha⟩

theorem accounted_dequeue {S : List Str} {st : TraversalState} {hd : Str}
    {rest : List Str} (hq : st.queue = hd :: rest) (h : QueueAccounted S st) :
    QueueAccounted (S ++ [hd]) { st with queue := rest } := by
  obtain ⟨h1, h2, h3⟩ := h
  rw [hq] at h2 h3
  refine ⟨h1, ?_, ?_⟩
  · intro x
    dsimp only
    rw [List.append_assoc]
    exact h2 x
  · dsimp only
    rw [List.append_assoc]
    exact h3

theorem head_mem_in_queue {S : List Str} {st : TraversalState} {hd : Str}
    {rest : List Str} (hq : st.queue = hd :: rest) (h : QueueAccounted S st) :
    hd ∈ st.in_queue := by
  obtain ⟨_, h2, _⟩ := h
  exact (h2 hd).mpr (by rw [hq]; simp)

theorem processImport_ok_facts {fuel : Nat} {env : Env} {opts : IOptions}
    {filePath : Str} {acc acc' : Str × TraversalState} {ref : FileReference}
    (h : processImport fuel env opts filePath acc ref = .ok acc') :
    (acc'.2.processed = acc.2.processed ∧ acc'.2.writes = acc.2.writes)
    ∧ (∀ q, q ∈ acc.2.in_queue → q ∈ acc'.2.in_queue)
    ∧ (∀ q, q ∈ acc'.2.in_queue → q ∈ acc.2.in_queue
        ∨ ImportTargetOf env opts filePath ref q)
    ∧ (∀ S, QueueAccounted S acc.2 → QueueAccounted S acc'.2) := by
  unfold processImport at h
  by_cases hskip : shouldSkipImport opts ref.fileName
  · rw [if_pos hskip] at h
    cases h
    exact ⟨⟨rfl, rfl⟩, fun q hq => hq, fun q hq => .inl hq, fun S hS => hS⟩
  · rw [if_neg hskip] at h
    rw [Bool.not_eq_true] at hskip
    by_cases hrel : isRelativeSpecifier ref.fileName
    · rw [if_pos hrel] at h
      cases h
      refine ⟨⟨enqueue_processed _ _, enqueue_writes _ _⟩,
        fun q hq => mem_enqueue_of_mem _ hq, fun q hq => ?_,
        fun S hS => enqueue_accounted _ hS⟩
      rcases mem_of_mem_enqueue hq with hq' | hq'
      · exact .inl hq'
      · exact .inr ⟨hskip, .inl ⟨hrel, hq'⟩⟩
    · rw [if_neg hrel] at h
      rw [Bool.not_eq_true] at hrel
      cases hres : resolveNonRelativeImport env opts filePath ref.fileName with
      | error e => rw [hres] at h; cases h
      | ok target =>
        rw [hres] at h
        cases h
        refine ⟨⟨enqueue_processed _ _, enqueue_writes _ _⟩,
          fun q hq => mem_enqueue_of_mem _ hq, fun q hq => ?_,
          fun S hS => enqueue_accounted _ hS⟩
        rcases mem_of_mem_enqueue hq with hq' | hq'
        · exact .inl hq'
        · exact .inr ⟨hskip, .inr ⟨hrel, by rw [hq']; exact hres⟩⟩

theorem processImport_ok_complete {fuel : Nat} {env : Env} {opts : IOptions}
    {filePath : Str} {acc acc' : Str × TraversalState} {ref : FileReference}
    (h : processImport fuel env opts filePath acc ref = .ok acc')
    (hskip : shouldSkipImport opts ref.fileName = false) :
    (isRelativeSpecifier ref.fileName = true →
       relImportTarget filePath ref.fileName ∈ acc'.2.in_queue)
    ∧ (isRelativeSpecifier ref.fileName = false →
       ∃ t, resolveNonRelativeImport env opts filePath ref.fileName = .ok t
         ∧ t ∈ acc'.2.in_queue) := by
  unfold processImport at h
  rw [hskip] at h
  simp only [Bool.false_eq_true, if_false] at h
  by_cases hrel : isRelativeSpecifier ref.fileName
  · rw [if_pos hrel] at h
    cases h
    refine ⟨fun _ => mem_enqueue_self _ _, fun hcontra => ?_⟩
    rw [hrel] at hcontra; cases hcontra
  · rw [if_neg hrel] at h
    rw [Bool.not_eq_true] at hrel
    cases hres : resolveNonRelativeImport env opts filePath ref.fileName with
    | error e => rw [hres] at h; cases h
    | ok target =>
      rw [hres] at h
      cases h
      refine ⟨fun hcontra => ?_, fun _ => ⟨target, rfl, mem_enqueue_self _ _⟩⟩
      rw [hrel] at hcontra; cases hcontra

theorem processImports_ok_facts {fuel : Nat} {env : Env} {opts : IOptions}
    {filePath : Str} :
    ∀ {refs : List FileReference} {acc acc' : Str × TraversalState},
    processImports fuel env opts filePath refs acc = .ok acc' →
    (acc'.2.processed = acc.2.processed ∧ acc'.2.writes = acc.2.writes)
    ∧ (∀ q, q ∈ acc.2.in_queue → q ∈ acc'.2.in_queue)
    ∧ (∀ q, q ∈ acc'.2.in_queue → q ∈ acc.2.in_queue
        ∨ ∃ ref ∈ refs, ImportTargetOf env opts filePath ref q)
    ∧ (∀ S, QueueAccounted S acc.2 → QueueAccounted S acc'.2) := by
  intro refs
  induction refs with
  | nil =>
    intro acc acc' h
    cases h
    exact ⟨⟨rfl, rfl⟩, fun q hq => hq, fun q hq => .inl hq, fun S hS => hS⟩
  | cons ref rest ih =>
    intro acc acc' h
    unfold processImports at h
    cases hstep : processImport fuel env opts filePath acc ref with
    | error e => rw [hstep] at h; cases h
    | ok mid =>
      rw [hstep] at h
      obtain ⟨⟨hsp, hsw⟩, hsmono, hssound, hsacc⟩ := processImport_ok_facts hstep
      obtain ⟨⟨hp, hw⟩, hmono, hsound, hacc⟩ := ih h
      refine ⟨⟨hp.trans hsp, hw.trans hsw⟩,
        fun q hq => hmono q (hsmono q hq), fun q hq => ?_,
        fun S hS => hacc S (hsacc S hS)⟩
      rcases hsound q hq with hq' | hq'
      · rcases hssound q hq' with hq'' | hq''
        · exact .inl hq''
        · exact .inr ⟨ref, by simp, hq''⟩
      · obtain ⟨ref', hmem, htgt⟩ := hq'
        exact .inr ⟨ref', by simp [hmem], htgt⟩

theorem processImports_ok_complete {fuel : Nat} {env : Env} {opts : IOptions}
    {filePath : Str} :
    ∀ {refs : List FileReference} {acc acc' : Str × TraversalState},
    processImports fuel env opts filePath refs acc = .ok acc' →
    ∀ ref ∈ refs, shouldSkipImport opts ref.fileName = false →
      (isRelativeSpecifier ref.fileName = true →
        relImportTarget filePath ref.fileName ∈ acc'.2.in_queue)
      ∧ (isRelativeSpecifier ref.fileName = false →
        ∃ t, resolveNonRelativeImport env opts filePath ref.fileName = .ok t
          ∧ t ∈ acc'.2.in_queue) := by
  intro refs
  induction refs with
  | nil => intro acc acc' h ref hmem; cases hmem
  | cons ref0 rest ih =>
    intro acc acc' h ref hmem hskip
    unfold processImports at h
    cases hstep : processImport fuel env opts filePath acc ref0 with
    | error e => rw [hstep] at h; cases h
    | ok mid =>
      rw [hstep] at h
      rcases List.mem_cons.mp hmem with heq | hmem'
      · subst heq
        obtain ⟨hrel, hbare⟩ := processImport_ok_complete hstep hskip
        obtain ⟨_, hmono, _, _⟩ := processImports_ok_facts h
        refine ⟨fun h1 => hmono _ (hrel h1), fun h1 => ?_⟩
        obtain ⟨t, ht1, ht2⟩ := hbare h1
        exact ⟨t, ht1, hmono _ ht2⟩
      · exact ih h ref hmem' hskip

theorem runLoop_ok_queue_nil {fuel : Nat} {env : Env} {opts : IOptions} :
    ∀ {loopFuel : Nat} {st st' : TraversalState},
    runLoop fuel env opts loopFuel st = .ok st' → st'.queue = [] := by
  intro loopFuel
  induction loopFuel with
  | zero =>
    intro st st' h
    unfold runLoop at h
    split at h
    · cases h; assumption
    · cases h
  | succ n ih =>
    intro st st' h
    unfold runLoop at h
    cases hq : st.queue with
    | nil => rw [hq] at h; cases h; exact hq
    | cons hd rest =>
      rw [hq] at h
      dsimp only at h
      cases hr : env.readFile hd with
      | none => rw [hr] at h; cases h
      | some contents =>
        rw [hr] at h
        dsimp only at h
        cases hpf : processFile fuel env opts hd contents { st with queue := rest } with
        | error e => rw [hpf] at h; cases h
        | ok res =>
          rw [hpf] at h
          obtain ⟨newContents, st2⟩ := res
          exact ih h

theorem runLoop_mono {fuel : Nat} {env : Env} {opts : IOptions} :
    ∀ {loopFuel : Nat} {st st' : TraversalState},
    runLoop fuel env opts loopFuel st = .ok st' →
    (∀ q, q ∈ st.in_queue → q ∈ st'.in_queue)
    ∧ (∀ q, q ∈ st.processed → q ∈ st'.processed)
    ∧ (∀ w, w ∈ st.writes → w ∈ st'.writes) := by
  intro loopFuel
  induction loopFuel with
  | zero =>
    intro st st' h
    unfold runLoop at h
    split at h
    · cases h; exact ⟨fun q hq => hq, fun q hq => hq, fun w hw => hw⟩
    · cases h
  | succ n ih =>
    intro st st' h
    unfold runLoop at h
    cases hq : st.queue with
    | nil =>
      rw [hq] at h; cases h
      exact ⟨fun q hq => hq, fun q hq => hq, fun w hw => hw⟩
    | cons hd rest =>
      rw [hq] at h
      dsimp only at h
      cases hr : env.readFile hd with
      | none => rw [hr] at h; cases h
      | some contents =>
        rw [hr] at h
        dsimp only at h
        cases hpf : processFile fuel env opts hd contents { st with queue := rest } with
        | error e => rw [hpf] at h; cases h
        | ok res =>
          rw [hpf] at h
          obtain ⟨newContents, st2⟩ := res
          obtain ⟨hmono1, hmono2, hmono3⟩ := ih h
          obtain ⟨⟨hp, hw⟩, hqmono, _, _⟩ := processImports_ok_facts hpf
          refine ⟨fun q hqm => hmono1 q ?_, fun q hqm => hmono2 q ?_,
            fun w hwm => hmono3 w ?_⟩
          · exact hqmono q hqm
          · unfold stepWrite
            dsimp only
            rw [hp]
            exact List.mem_append_left _ hqm
          · unfold stepWrite
            dsimp only
            rw [hw]
            exact List.mem_append_left _ hwm

theorem runLoop_accounted {fuel : Nat} {env : Env} {opts : IOptions} :
    ∀ {loopFuel : Nat} {st st' : TraversalState},
    runLoop fuel env opts loopFuel st = .ok st' →
    QueueAccounted st.processed st → QueueAccounted st'.processed st' := by
  intro loopFuel
  induction loopFuel with
  | zero =>
    intro st st' h hacc
    unfold runLoop at h
    split at h
    · cases h; exact hacc
    · cases h
  | succ n ih =>
    intro st st' h hacc
    unfold runLoop at h
    cases hq : st.queue with
    | nil => rw [hq] at h; cases h; exact hacc
    | cons hd rest =>
      rw [hq] at h
      dsimp only at h
      cases hr : env.readFile hd with
      | none => rw [hr] at h; cases h
      | some contents =>
        rw [hr] at h
        dsimp only at h
        cases hpf : processFile fuel env opts hd contents { st with queue := rest } with
        | error e => rw [hpf] at h; cases h
        | ok res =>
          rw [hpf] at h
          obtain ⟨newContents, st2⟩ := res
          apply ih h
          have hacc1 : QueueAccounted (st.processed ++ [hd]) { st with queue := rest } :=
            accounted_dequeue hq hacc
          obtain ⟨_, _, _, haccpf⟩ := processImports_ok_facts hpf
          have hacc2 : QueueAccounted (st.processed ++ [hd]) st2 :=
            haccpf _ hacc1
          obtain ⟨hp2, _⟩ := (processImports_ok_facts hpf).1
          unfold stepWrite QueueAccounted
          dsimp only
          rw [hp2]
          dsimp only
          exact hacc2

theorem runLoop_sound {fuel : Nat} {env : Env} {opts : IOptions} :
    ∀ {loopFuel : Nat} {st st' : TraversalState},
    runLoop fuel env opts loopFuel st = .ok st' →
    QueueAccounted st.processed st →
    (∀ q, q ∈ st.in_queue → Reachable env opts q) →
    ∀ q, q ∈ st'.in_queue → Reachable env opts q := by
  intro loopFuel
  induction loopFuel with
  | zero =>
    intro st st' h hacc hsound
    unfold runLoop at h
    split at h
    · cases h; exact hsound
    · cases h
  | succ n ih =>
    intro st st' h hacc hsound
    unfold runLoop at h
    cases hq : st.queue with
    | nil => rw [hq] at h; cases h; exact hsound
    | cons hd rest =>
      rw [hq] at h
      dsimp only at h
      cases hr : env.readFile hd with
      | none => rw [hr] at h; cases h
      | some contents =>
        rw [hr] at h
        dsimp only at h
        cases hpf : processFile fuel env opts hd contents { st with queue := rest } with
        | error e => rw [hpf] at h; cases h
        | ok res =>
          rw [hpf] at h
          obtain ⟨newContents, st2⟩ := res
          have hhd : Reachable env opts hd := hsound hd (head_mem_in_queue hq hacc)
          obtain ⟨_, _, hsnd, haccpf⟩ := processImports_ok_facts hpf
          apply ih h
          · have hacc1 : QueueAccounted (st.processed ++ [hd]) { st with queue := rest } :=
              accounted_dequeue hq hacc
            have hacc2 := haccpf _ hacc1
            obtain ⟨hp2, _⟩ := (processImports_ok_facts hpf).1
            unfold stepWrite QueueAccounted
            dsimp only
            rw [hp2]
            exact hacc2
          · intro q hqm
            rcases hsnd q hqm with hq' | hq'
            · exact hsound q hq'
            · obtain ⟨ref, hmem, hskip, htgt⟩ := hq'
              rw [List.mem_reverse] at hmem
              rcases htgt with ⟨hrel, rfl⟩ | ⟨hrel, hres⟩
              · exact .relStep hhd hr hmem hskip hrel
              · exact .bareStep hhd hr hmem hskip hrel hres

theorem runLoop_processed_targets {fuel : Nat} {env : Env} {opts : IOptions} :
    ∀ {loopFuel : Nat} {st st' : TraversalState},
    runLoop fuel env opts loopFuel st = .ok st' →
    ∀ p, p ∈ st'.processed →
      p ∈ st.processed ∨ ProcessedFileTargets env opts p st' := by
  intro loopFuel
  induction loopFuel with
  | zero =>
    intro st st' h p hp
    unfold runLoop at h
    split at h
    · cases h; exact .inl hp
    · cases h
  | succ n ih =>
    intro st st' h p hp
    unfold runLoop at h
    cases hq : st.queue with
    | nil => rw [hq] at h; cases h; exact .inl hp
    | cons hd rest =>
      rw [hq] at h
      dsimp only at h
      cases hr : env.readFile hd with
      | none => rw [hr] at h; cases h
      | some contents =>
        rw [hr] at h
        dsimp only at h
        cases hpf : processFile fuel env opts hd contents { st with queue := rest } with
        | error e => rw [hpf] at h; cases h
        | ok res =>
          rw [hpf] at h
          obtain ⟨newContents, st2⟩ := res
          rcases ih h p hp with hp' | hp'
          · unfold stepWrite at hp'
            dsimp only at hp'
            obtain ⟨hp2, _⟩ := (processImports_ok_facts hpf).1
            rw [hp2] at hp'
            dsimp only at hp'
            rcases List.mem_append.mp hp' with hp'' | hp''
            · exact .inl hp''
            · right
              have hpd : p = hd := by simpa using hp''
              subst hpd
              intro c hc ref hmem hskip
              rw [hr] at hc
              cases hc
              have hcomp := processImports_ok_complete hpf
                ref (List.mem_reverse.mpr hmem) hskip
              obtain ⟨hmono, _, _⟩ := runLoop_mono h
              have hstepq : ∀ x, x ∈ st2.in_queue →
                  x ∈ (stepWrite fuel opts st2 p newContents).in_queue := by
                intro x hx
                unfold stepWrite
                exact hx
              refine ⟨fun h1 => hmono _ (hstepq _ (hcomp.1 h1)), fun h1 => ?_⟩
              obtain ⟨t, ht1, ht2⟩ := hcomp.2 h1
              exact ⟨t, ht1, hmono _ (hstepq _ ht2)⟩
          · exact .inr hp'

theorem runLoop_writes_sources {fuel : Nat} {env : Env} {opts : IOptions} :
    ∀ {loopFuel : Nat} {st st' : TraversalState},
    runLoop fuel env opts loopFuel st = .ok st' →
    st.writes.map (fun w => w.1) = st.processed →
    st'.writes.map (fun w => w.1) = st'.processed := by
  intro loopFuel
  induction loopFuel with
  | zero =>
    intro st st' h hws
    unfold runLoop at h
    split at h
    · cases h; exact hws
    · cases h
  | succ n ih =>
    intro st st' h hws
    unfold runLoop at h
    cases hq : st.queue with
    | nil => rw [hq] at h; cases h; exact hws
    | cons hd rest =>
      rw [hq] at h
      dsimp only at h
      cases hr : env.readFile hd with
      | none => rw [hr] at h; cases h
      | some contents =>
        rw [hr] at h
        dsimp only at h
        cases hpf : processFile fuel env opts hd contents { st with queue := rest } with
        | error e => rw [hpf] at h; cases h
        | ok res =>
          rw [hpf] at h
          obtain ⟨newContents, st2⟩ := res
          apply ih h
          obtain ⟨hp2, hw2⟩ := (processImports_ok_facts hpf).1
          unfold stepWrite
          dsimp only
          rw [hp2, hw2]
          dsimp only
          rw [List.map_append, hws]
          rfl

theorem seed_processed_writes (opts : IOptions) :
    (seedState opts).processed = [] ∧ (seedState opts).writes = []
    ∧ QueueAccounted (seedState opts).processed (seedState opts) := by
  unfold seedState
  have hgen : ∀ (l : List Str) (st : TraversalState),
      (l.foldl (fun st e => enqueue st (pathJoinList [esmSrcDir opts, e])) st).processed
          = st.processed
      ∧ (l.foldl (fun st e => enqueue st (pathJoinList [esmSrcDir opts, e])) st).writes
          = st.writes
      ∧ (∀ S, QueueAccounted S st →
          QueueAccounted S
            (l.foldl (fun st e => enqueue st (pathJoinList [esmSrcDir opts, e])) st)) := by
    intro l
    induction l with
    | nil => intro st; exact ⟨rfl, rfl, fun S hS => hS⟩
    | cons e rest ih =>
      intro st
      rw [List.foldl_cons]
      obtain ⟨hp, hw, hacc⟩ := ih (enqueue st (pathJoinList [esmSrcDir opts, e]))
      exact ⟨hp.trans (enqueue_processed _ _), hw.trans (enqueue_writes _ _),
        fun S hS => hacc S (enqueue_accounted _ hS)⟩
  obtain ⟨hp, hw, hacc⟩ := hgen opts.entryPoints ⟨[], [], [], []⟩
  refine ⟨hp, hw, ?_⟩
  rw [hp]
  exact hacc [] ⟨List.nodup_nil, fun x => Iff.rfl, List.nodup_nil⟩

theorem seed_mem (opts : IOptions) {e : Str} (he : e ∈ opts.entryPoints) :
    pathJoinList [esmSrcDir opts, e] ∈ (seedState opts).in_queue := by
  unfold seedState
  have hgen : ∀ (l : List Str) (st : TraversalState),
      (∀ x, x ∈ st.in_queue →
        x ∈ (l.foldl (fun st e => enqueue st (pathJoinList [esmSrcDir opts, e])) st).in_queue)
      ∧ (∀ x ∈ l, pathJoinList [esmSrcDir opts, x]
          ∈ (l.foldl (fun st e => enqueue st (pathJoinList [esmSrcDir opts, e])) st).in_queue) := by
    intro l
    induction l with
    | nil => intro st; exact ⟨fun x hx => hx, fun x hx => absurd hx (List.not_mem_nil x)⟩
    | cons a rest ih =>
      intro st
      rw [List.foldl_cons]
      obtain ⟨hmono, hmem⟩ := ih (enqueue st (pathJoinList [esmSrcDir opts, a]))
      refine ⟨fun x hx => hmono x (mem_enqueue_of_mem _ hx), fun x hx => ?_⟩
      rcases List.mem_cons.mp hx with rfl | hx'
      · exact hmono _ (mem_enqueue_self _ _)
      · exact hmem x hx'
  exact (hgen opts.entryPoints ⟨[], [], [], []⟩).2 e he

theorem seed_sound (opts : IOptions) {q : Str}
    (hq : q ∈ (seedState opts).in_queue) :
    ∃ e ∈ opts.entryPoints, q = pathJoinList [esmSrcDir opts, e] := by
  unfold seedState at hq
  have hgen : ∀ (l : List Str) (st : TraversalState),
      ∀ x, x ∈ (l.foldl (fun st e => enqueue st (pathJoinList [esmSrcDir opts, e])) st).in_queue →
        x ∈ st.in_queue ∨ ∃ e ∈ l, x = pathJoinList [esmSrcDir opts, e] := by
    intro l
    induction l with
    | nil => intro st x hx; exact .inl hx
    | cons a rest ih =>
      intro st x hx
      rw [List.foldl_cons] at hx
      rcases ih (enqueue st (pathJoinList [esmSrcDir opts, a])) x hx with hx' | hx'
      · rcases mem_of_mem_enqueue hx' with hx'' | hx''
        · exact .inl hx''
        · exact .inr ⟨a, by simp, hx''⟩
      · obtain ⟨e, he, hxe⟩ := hx'
        exact .inr ⟨e, by simp [he], hxe⟩
  rcases hgen opts.entryPoints ⟨[], [], [], []⟩ q hq with hq' | hq'
  · cases hq'
  · exact hq'

/-! ## C1: reachability closure, and C2: no double processing -/

/-- C1: a normally-returning run of `packageESM` reads and writes
exactly the files transitively reachable from the entry points via
non-skipped imports and no others: the set of files dequeued and read
(`processed`) coincides with the `Reachable` set (whose constructors
only ever follow non-skipped imports, so a specifier matching a skip
prefix is never resolved, never enqueued and never read), and the files
written are exactly the files read, once each, in order. -/
theorem packageESM_reachability_closure (opts : IOptions) (env : Env)
    (loopFuel fuel : Nat) (st : TraversalState)
    (hok : (_packageESM opts env loopFuel fuel).result = .ok st) :
    (∀ p, p ∈ st.processed ↔ Reachable env (mutatedOptions opts) p)
    ∧ (∀ p, p ∈ st.in_queue ↔ Reachable env (mutatedOptions opts) p)
    ∧ st.writes.map (fun w => w.1) = st.processed := by
  have hrun : runLoop fuel env (mutatedOptions opts) loopFuel
      (seedState (mutatedOptions opts)) = .ok st := hok
  obtain ⟨hsp, hsw, hsacc⟩ := seed_processed_writes (mutatedOptions opts)
  have hacc' := runLoop_accounted hrun hsacc
  have hqnil := runLoop_ok_queue_nil hrun
  have hsound := runLoop_sound hrun hsacc (fun q hq => by
    obtain ⟨e, he, rfl⟩ := seed_sound (mutatedOptions opts) hq
    exact Reachable.entry e he)
  have hforward : ∀ p, p ∈ st.processed → Reachable env (mutatedOptions opts) p := by
    intro p hp
    apply hsound
    obtain ⟨_, hiff, _⟩ := hacc'
    exact (hiff p).mpr (by rw [hqnil]; simpa using hp)
  have hback : ∀ p, Reachable env (mutatedOptions opts) p → p ∈ st.processed := by
    intro p hr
    induction hr with
    | entry e he =>
      have h1 := seed_mem (mutatedOptions opts) he
      have h2 := (runLoop_mono hrun).1 _ h1
      obtain ⟨_, hiff, _⟩ := hacc'
      have h3 := (hiff _).mp h2
      rw [hqnil] at h3
      simpa using h3
    | relStep hf hc hm hskip hrel ih =>
      rcases runLoop_processed_targets hrun _ ih with habs | htgt
      · rw [hsp] at habs; cases habs
      · have h1 := (htgt _ hc _ hm hskip).1 hrel
        obtain ⟨_, hiff, _⟩ := hacc'
        have h3 := (hiff _).mp h1
        rw [hqnil] at h3
        simpa using h3
    | bareStep hf hc hm hskip hrel hres ih =>
      rcases runLoop_processed_targets hrun _ ih with habs | htgt
      · rw [hsp] at habs; cases habs
      · obtain ⟨t', ht1, ht2⟩ := (htgt _ hc _ hm hskip).2 hrel
        have h4 := ht1.symm.trans hres
        injection h4 with hteq
        rw [hteq] at ht2
        obtain ⟨_, hiff, _⟩ := hacc'
        have h3 := (hiff _).mp ht2
        rw [hqnil] at h3
        simpa using h3
  refine ⟨fun p => ⟨hforward p, hback p⟩, fun p => ⟨hsound p, fun hr => ?_⟩,
    runLoop_writes_sources hrun (by rw [hsw, hsp]; rfl)⟩
  obtain ⟨_, hiff, _⟩ := hacc'
  apply (hiff p).mpr
  rw [hqnil]
  exact List.mem_append_left _ (hback p hr)

/-- C1 witness: in the concrete run on `optsW`/`envW` the entry file
`/r/src/a.js` is processed, as forced by its reachability. -/
theorem packageESM_reachability_closure_witness :
    str "/r/src/a.js" ∈ stW.processed :=
  ((packageESM_reachability_closure optsW envW 2 1 stW (by rfl)).1 _).mpr
    (Reachable.entry (str "a.js") (by decide))

/-- C2: during one `packageESM` run that returns normally, every file
path enters the pending set at most once (the append-only `in_queue`
log is duplicate-free, so a file already pending or processed is never
re-enqueued) and is dequeued, read, rewritten and written at most once
(the `processed` log is duplicate-free and the write log lists exactly
the processed files, once each). -/
theorem packageESM_no_double_processing (opts : IOptions) (env : Env)
    (loopFuel fuel : Nat) (st : TraversalState)
    (hok : (_packageESM opts env loopFuel fuel).result = .ok st) :
    st.in_queue.Nodup ∧ st.processed.Nodup
    ∧ st.writes.map (fun w => w.1) = st.processed := by
  have hrun : runLoop fuel env (mutatedOptions opts) loopFuel
      (seedState (mutatedOptions opts)) = .ok st := hok
  obtain ⟨hsp, hsw, hsacc⟩ := seed_processed_writes (mutatedOptions opts)
  obtain ⟨h1, h2, h3⟩ := runLoop_accounted hrun hsacc
  have hq := runLoop_ok_queue_nil hrun
  refine ⟨h1, ?_, runLoop_writes_sources hrun (by rw [hsw, hsp]; rfl)⟩
  rw [hq, List.append_nil] at h3
  exact h3

/-- C2 witness: the concrete run's logs are duplicate-free. -/
theorem packageESM_no_double_processing_witness :
    stW.in_queue.Nodup ∧ stW.processed.Nodup :=
  ⟨(packageESM_no_double_processing optsW envW 2 1 stW (by rfl)).1,
   (packageESM_no_double_processing optsW envW 2 1 stW (by rfl)).2.1⟩

/-! ## C4: the frame property of the rewritten output -/

theorem listExtract_split (s : Str) (i j k : Nat) (h1 : i ≤ j) (h2 : j ≤ k) :
    listExtract s i k = listExtract s i j ++ listExtract s j k := by
  unfold listExtract
  have hk : k - i = (j - i) + (k - j) := by omega
  rw [hk, List.take_add]
  congr 1
  rw [List.drop_drop]
  have h3 : i + (j - i) = j := by omega
  rw [h3]

theorem listExtract_length (s : Str) (a b : Nat) (hb : b ≤ s.length)
    (hab : a ≤ b) : (listExtract s a b).length = b - a := by
  unfold listExtract
  rw [List.length_take, List.length_drop]
  omega

theorem assembleFrom_cut (fuel : Nat) (env : Env) (opts : IOptions)
    (filePath s : Str) (refs : List FileReference) (i j : Nat)
    (hij : i ≤ j) (hall : ∀ ref ∈ refs, j ≤ ref.pos + 1) :
    assembleFrom fuel env opts filePath s i refs
      = listExtract s i j ++ assembleFrom fuel env opts filePath s j refs := by
  cases refs with
  | nil =>
    unfold assembleFrom listExtract
    conv_lhs => rw [← List.take_append_drop (j - i) (s.drop i)]
    congr 1
    rw [List.drop_drop]
    have h3 : i + (j - i) = j := by omega
    rw [h3]
  | cons ref rest =>
    unfold assembleFrom
    rw [listExtract_split s i j (ref.pos + 1) hij (hall ref (by simp))]
    simp [List.append_assoc]

theorem processImports_append (fuel : Nat) (env : Env) (opts : IOptions)
    (filePath : Str) :
    ∀ (l₁ l₂ : List FileReference) (acc : Str × TraversalState),
    processImports fuel env opts filePath (l₁ ++ l₂) acc
      = (match processImports fuel env opts filePath l₁ acc with
         | .error e => .error e
         | .ok acc' => processImports fuel env opts filePath l₂ acc') := by
  intro l₁
  induction l₁ with
  | nil => intro l₂ acc; rfl
  | cons ref rest ih =>
    intro l₂ acc
    rw [List.cons_append]
    cases hstep : processImport fuel env opts filePath acc ref with
    | error e => simp only [processImports, hstep]
    | ok mid =>
      simp only [processImports, hstep]
      exact ih l₂ mid

theorem processImports_reverse_rewrite (fuel : Nat) (env : Env) (opts : IOptions)
    (filePath : Str) :
    ∀ (refs : List FileReference) (s : Str) (st : TraversalState)
      (c' : Str) (st' : TraversalState),
    List.Pairwise (fun a b => a.end_ ≤ b.pos) refs →
    (∀ ref ∈ refs, ref.pos ≤ ref.end_ ∧ ref.end_ + 1 ≤ s.length) →
    processImports fuel env opts filePath refs.reverse (s, st) = .ok (c', st') →
    c' = assembleFrom fuel env opts filePath s 0 refs := by
  intro refs
  induction refs with
  | nil =>
    intro s st c' st' _ _ h
    rw [List.reverse_nil] at h
    cases h
    rfl
  | cons ref rest ih =>
    intro s st c' st' hpair hbound h
    have hhead : ∀ r' ∈ rest, ref.end_ ≤ r'.pos := (List.pairwise_cons.mp hpair).1
    have hptail := (List.pairwise_cons.mp hpair).2
    have hbtail : ∀ r ∈ rest, r.pos ≤ r.end_ ∧ r.end_ + 1 ≤ s.length :=
      fun r hr => hbound r (List.mem_cons_of_mem _ hr)
    obtain ⟨hpe, hel⟩ := hbound ref (by simp)
    rw [List.reverse_cons, processImports_append] at h
    cases hmid : processImports fuel env opts filePath rest.reverse (s, st) with
    | error e => rw [hmid] at h; cases h
    | ok mid =>
      rw [hmid] at h
      dsimp only at h
      obtain ⟨c₁, st₁⟩ := mid
      have hc₁ : c₁ = assembleFrom fuel env opts filePath s 0 rest :=
        ih s st c₁ st₁ hptail hbtail hmid
      have hdec : assembleFrom fuel env opts filePath s 0 rest
          = listExtract s 0 (ref.pos + 1)
            ++ (listExtract s (ref.pos + 1) (ref.end_ + 1)
                ++ assembleFrom fuel env opts filePath s (ref.end_ + 1) rest) := by
        rw [assembleFrom_cut fuel env opts filePath s rest 0 (ref.end_ + 1)
             (by omega) (fun r hr => by have := hhead r hr; omega),
           listExtract_split s 0 (ref.pos + 1) (ref.end_ + 1) (by omega) (by omega),
           List.append_assoc]
      have hA : (listExtract s 0 (ref.pos + 1)).length = ref.pos + 1 := by
        rw [listExtract_length s 0 (ref.pos + 1) (by omega) (by omega)]
        omega
      have hB : (listExtract s (ref.pos + 1) (ref.end_ + 1)).length
          = ref.end_ - ref.pos := by
        rw [listExtract_length s (ref.pos + 1) (ref.end_ + 1) (by omega) (by omega)]
        omega
      unfold processImports at h
      cases hstep : processImport fuel env opts filePath (c₁, st₁) ref with
      | error e => rw [hstep] at h; cases h
      | ok acc2 =>
        rw [hstep] at h
        dsimp only at h
        cases h
        unfold processImport at hstep
        by_cases hskip : shouldSkipImport opts ref.fileName
        · rw [if_pos hskip] at hstep
          cases hstep
          unfold assembleFrom newSpanText
          rw [if_pos hskip]
          rw [hc₁, hdec]
          rw [List.append_assoc]
        · rw [if_neg hskip] at hstep
          rw [Bool.not_eq_true] at hskip
          by_cases hrel : isRelativeSpecifier ref.fileName
          · rw [if_pos hrel] at hstep
            cases hstep
            unfold assembleFrom newSpanText
            rw [hskip, hrel]
            simp only [Bool.false_eq_true, if_false, if_true]
            rw [hc₁, hdec]
            rw [List.append_assoc]
          · rw [if_neg hrel] at hstep
            rw [Bool.not_eq_true] at hrel
            cases hres : resolveNonRelativeImport env opts filePath ref.fileName with
            | error e => rw [hres] at hstep; cases hstep
            | ok target =>
              rw [hres] at hstep
              cases hstep
              unfold assembleFrom newSpanText
              rw [hskip, hrel, hres]
              simp only [Bool.false_eq_true, if_false]
              unfold splice
              rw [hc₁, hdec]
              rw [List.take_left' hA]
              rw [← List.append_assoc]
              rw [List.drop_left' (by rw [List.length_append, hA, hB]; omega)]

theorem runLoop_writes_shape {fuel : Nat} {env : Env} {opts : IOptions}
    (hscan : ScannerOK env) :
    ∀ {loopFuel : Nat} {st st' : TraversalState},
    runLoop fuel env opts loopFuel st = .ok st' →
    ∀ w ∈ st'.writes, w ∈ st.writes
      ∨ ∃ orig, env.readFile w.1 = some orig
          ∧ w.2.2 = assembleFrom fuel env opts w.1 orig 0 (env.preProcessFile orig)
          ∧ w.2.1 = computeDestinationFilePath fuel opts w.1 := by
  intro loopFuel
  induction loopFuel with
  | zero =>
    intro st st' h w hw
    unfold runLoop at h
    split at h
    · cases h; exact .inl hw
    · cases h
  | succ n ih =>
    intro st st' h w hw
    unfold runLoop at h
    cases hq : st.queue with
    | nil => rw [hq] at h; cases h; exact .inl hw
    | cons hd rest =>
      rw [hq] at h
      dsimp only at h
      cases hr : env.readFile hd with
      | none => rw [hr] at h; cases h
      | some contents =>
        rw [hr] at h
        dsimp only at h
        cases hpf : processFile fuel env opts hd contents { st with queue := rest } with
        | error e => rw [hpf] at h; cases h
        | ok res =>
          rw [hpf] at h
          obtain ⟨newContents, st2⟩ := res
          rcases ih h w hw with hw' | hw'
          · unfold stepWrite at hw'
            dsimp only at hw'
            obtain ⟨_, hw2⟩ := (processImports_ok_facts hpf).1
            rw [hw2] at hw'
            dsimp only at hw'
            rcases List.mem_append.mp hw' with hw'' | hw''
            · exact .inl hw''
            · right
              have hwe : w = (hd, computeDestinationFilePath fuel opts hd, newContents) := by
                simpa using hw''
              subst hwe
              refine ⟨contents, hr, ?_, rfl⟩
              obtain ⟨hpair, hbound⟩ := hscan contents
              exact processImports_reverse_rewrite fuel env opts hd
                (env.preProcessFile contents) contents _ newContents st2
                hpair hbound hpf
          · exact .inr hw'

/-- C4: in a normally-returning run with a well-formed scanner, every
output file's contents decompose as the source file's bytes with
exactly the spans of non-relative, non-skipped import specifiers
replaced by the computed relative specifiers (`assembleFrom` copies
every byte outside the scanned spans from the source text, and
`newSpanText` keeps the original span text for skipped and for relative
specifiers — so a relative import's specifier text is left unmodified
in the written output even though its target is enqueued); each write
lands at the computed destination path. -/
theorem packageESM_output_frame (opts : IOptions) (env : Env)
    (loopFuel fuel : Nat) (st : TraversalState) (hscan : ScannerOK env)
    (hok : (_packageESM opts env loopFuel fuel).result = .ok st) :
    ∀ w ∈ st.writes, ∃ orig, env.readFile w.1 = some orig
      ∧ w.2.2 = assembleFrom fuel env (mutatedOptions opts) w.1 orig 0
          (env.preProcessFile orig)
      ∧ w.2.1 = computeDestinationFilePath fuel (mutatedOptions opts) w.1
      ∧ ∀ ref ∈ env.preProcessFile orig,
          shouldSkipImport (mutatedOptions opts) ref.fileName = false →
          isRelativeSpecifier ref.fileName = true →
          newSpanText fuel env (mutatedOptions opts) w.1 orig ref
            = listExtract orig (ref.pos + 1) (ref.end_ + 1) := by
  intro w hw
  have hrun : runLoop fuel env (mutatedOptions opts) loopFuel
      (seedState (mutatedOptions opts)) = .ok st := hok
  rcases runLoop_writes_shape hscan hrun w hw with habs | ⟨orig, h1, h2, h3⟩
  · rw [(seed_processed_writes (mutatedOptions opts)).2.1] at habs
    cases habs
  · refine ⟨orig, h1, h2, h3, fun ref hm hskip hrel => ?_⟩
    unfold newSpanText
    rw [hskip, hrel]
    simp

/-- C4 witness: the single write of the concrete run copies the source
text unchanged (no scanned references) to the computed destination. -/
theorem packageESM_output_frame_witness :
    ∃ orig, envW.readFile (str "/r/src/a.js") = some orig
      ∧ str "let x = 1;" = assembleFrom 1 envW (mutatedOptions optsW)
          (str "/r/src/a.js") orig 0 (envW.preProcessFile orig)
      ∧ str "/r/out/a.js" = computeDestinationFilePath 1 (mutatedOptions optsW)
          (str "/r/src/a.js")
      ∧ ∀ ref ∈ envW.preProcessFile orig,
          shouldSkipImport (mutatedOptions optsW) ref.fileName = false →
          isRelativeSpecifier ref.fileName = true →
          newSpanText 1 envW (mutatedOptions optsW) (str "/r/src/a.js") orig ref
            = listExtract orig (ref.pos + 1) (ref.end_ + 1) :=
  packageESM_output_frame optsW envW 2 1 stW
    (fun _ => ⟨List.Pairwise.nil, fun ref hm => absurd hm (List.not_mem_nil ref)⟩)
    (by rfl)
    (str "/r/src/a.js", str "/r/out/a.js", str "let x = 1;") (by decide)

/-! ## C8: destination path computation -/

/-- The fuel-bounded replacement loop only ever performs genuine
`replaceFirst` steps. -/
theorem replaceLoop_reaches (pat rep : Str) :
    ∀ fuel s, Relation.ReflTransGen (replStep pat rep) s (replaceLoop fuel s pat rep) := by
  intro fuel
  induction fuel with
  | zero => intro s; exact .refl
  | succ n ih =>
    intro s
    unfold replaceLoop
    by_cases hocc : occursIn s pat
    · rw [if_pos hocc]
      exact Relation.ReflTransGen.head ⟨hocc, rfl⟩ (ih _)
    · rw [if_neg hocc]

/-- If the rule loop reports completion, every rule in the list was
exhausted in order: the fold realizes a `SimplChain`. -/
theorem applyRulesAux_chain (fuel : Nat) (table : List (Str × Str)) :
    ∀ rules s, (applyRulesAux fuel table rules s).2 = true →
      SimplChain table rules s (applyRulesAux fuel table rules s).1 := by
  intro rules
  induction rules with
  | nil => intro s _; exact .nil s
  | cons kv rest ih =>
    intro s hdone
    obtain ⟨key, v⟩ := kv
    unfold applyRulesAux at hdone ⊢
    dsimp only at hdone ⊢
    rw [Bool.and_eq_true, Bool.not_eq_true'] at hdone
    exact .cons ⟨replaceLoop_reaches _ _ fuel s, hdone.1⟩ (ih _ hdone.2)

/-- C8 counterexample: with the configured simplification rule
`a\b -> X` (pattern containing a backslash) and the file
`/r/deps/a/b/f.js` (not under the source subdirectory), the claim
predicts the rule rewrites the destination to `/r/out/deps/X/f.js`
(second conjunct: the pattern, separator-normalized for matching,
exhausts to exactly that), but the code computes
`/r/out/deps/undefined/f.js`: the replacement is looked up by the
normalized pattern `a/b`, misses, and JavaScript coerces the
`undefined` to the string `"undefined"`. -/
theorem simplification_backslash_key_substitutes_undefined :
    computeDestinationFilePath 8 optsBackslashKey (str "/r/deps/a/b/f.js")
        = str "/r/out/deps/undefined/f.js"
    ∧ ExhaustsTo (normSlashes (str "a\\b")) (str "X")
        (str "/r/out/deps/a/b/f.js") (str "/r/out/deps/X/f.js")
    ∧ str "/r/out/deps/undefined/f.js" ≠ str "/r/out/deps/X/f.js" :=
  ⟨by decide,
   ⟨Relation.ReflTransGen.single ⟨by decide, by decide⟩, by decide⟩,
   by decide⟩

/-- C8 (amended): for every absolute source path, if the source
subdirectory path is a string prefix of it, its destination is the
destination subdirectory joined with the path's position relative to
the source subdirectory; otherwise its destination is obtained from the
destination subdirectory joined with the path's position relative to
the repository root by normalizing separators to forward slashes,
applying each configured rule in order — repeatedly replacing the first
occurrence of the rule's separator-normalized pattern until no
occurrence remains, with the replacement string looked up from the
table by that normalized pattern (so a rule whose key contains a
backslash substitutes the string `undefined`) — and normalizing the
result.  The fuel hypothesis states that the model's bounded loops
reached completion, i.e. the source's `while` loops terminate on this
input. -/
theorem computeDestinationFilePath_characterized (fuel : Nat) (opts : IOptions)
    (filePath : Str)
    (hfuel : simplificationsComplete fuel opts
      (pathJoinList [esmDestDir opts, pathRelative opts.repoRoot filePath]) = true) :
    ((esmSrcDir opts).isPrefixOf filePath = true →
       computeDestinationFilePath fuel opts filePath
         = pathJoinList [esmDestDir opts, pathRelative (esmSrcDir opts) filePath])
    ∧ ((esmSrcDir opts).isPrefixOf filePath = false →
       ∃ r, SimplChain opts.destinationFolderSimplification
              opts.destinationFolderSimplification
              (normSlashes (pathJoinList [esmDestDir opts,
                 pathRelative opts.repoRoot filePath])) r
          ∧ computeDestinationFilePath fuel opts filePath = pathNormalize r) := by
  constructor
  · intro hpre
    unfold computeDestinationFilePath
    rw [hpre]
    simp
  · intro hpre
    refine ⟨applyDestinationFolderSimplifications fuel opts
      (pathJoinList [esmDestDir opts, pathRelative opts.repoRoot filePath]), ?_, ?_⟩
    · exact applyRulesAux_chain fuel opts.destinationFolderSimplification
        opts.destinationFolderSimplification _ hfuel
    · unfold computeDestinationFilePath
      rw [hpre]
      simp

/-- C8 witness: with the rule `deps -> d`, the third-party path
`/r/deps/x.js` is simplified: some exhausted rewrite of
`/r/out/deps/x.js` yields the computed destination. -/
theorem computeDestinationFilePath_characterized_witness :
    ∃ r, SimplChain optsSimplDeps.destinationFolderSimplification
           optsSimplDeps.destinationFolderSimplification
           (normSlashes (pathJoinList [esmDestDir optsSimplDeps,
              pathRelative optsSimplDeps.repoRoot (str "/r/deps/x.js")])) r
       ∧ computeDestinationFilePath 8 optsSimplDeps (str "/r/deps/x.js")
           = pathNormalize r :=
  (computeDestinationFilePath_characterized 8 optsSimplDeps (str "/r/deps/x.js")
    (by decide)).2 (by decide)

/-- C7 witness: on the concrete `envNM` filesystem the located package
`/r/node_modules/m` with manifest field `module: "index.js"` resolves
to `/r/node_modules/m/index.js`. -/
theorem findNodeModuleImport_manifest_checks_witness :
    findNodeModuleImport envNM (str "/r") (str "m") (str "/r/src/a.js")
      = .ok (str "/r/node_modules/m/index.js") :=
  (findNodeModuleImport_manifest_checks envNM (str "/r") (str "m")
      (str "/r/src/a.js") (str "/r/node_modules/m") (by decide)).2.2.2
    (.obj [(str "module", .jstr (str "index.js"))]) (str "index.js")
    (by decide) (by rfl) (by rfl) (by decide)

end PackageESM
